import Mathlib

/-!
Verification of the Dynamic Time Warping (DTW) distance metric of the
RadioML repository (`src/metric_dtw.rs`), against its natural-language
specification.

The engine `one_to_one` is generic over an element type `T` and a result
type `U`; the Rust bound `U : Number` (numeric, ordered, addition, zero)
is modelled by `LinearOrderedAddCommMonoid U`.  Rust panics (out-of-bounds
indexing, which is the only way the function can fail) are modelled by
`Option.none`: every slice/vector index in the source becomes `List.get?`,
and a panic propagates as `none` through the `Option` monad.
-/

namespace RadioML

variable {T U : Type}

/-- Embedding of the closure `|a, b| if a < b { a } else { b }` passed to
`Iterator::reduce` in `one_to_one` (src/metric_dtw.rs line 49). -/
def rustMin [LT U] [DecidableRel (· < · : U → U → Prop)] (a b : U) : U :=
  if a < b then a else b

/-- Embedding of `neighbor_costs.into_iter().reduce(|a, b| if a < b { a } else { b }).unwrap_or(U::zero())`
(src/metric_dtw.rs lines 47-50): the first element seeds the fold, an empty
list yields zero. -/
def reduceMinOrZero [Zero U] [LT U] [DecidableRel (· < · : U → U → Prop)] : List U → U
  | [] => 0
  | a :: rest => rest.foldl rustMin a

/-- Two-level indexing `cost_matrix[r][c]`; `none` is the Rust
index-out-of-bounds panic. -/
def getCell (cm : List (List U)) (r c : Nat) : Option U :=
  cm[r]?.bind (fun row => row[c]?)

/-- Embedding of the body of the inner loop of `one_to_one`
(src/metric_dtw.rs lines 27-53): compute the pointwise distance
`self.child_metric.one_to_one(&[x[c]], &[y[r]])` (modelled by the opaque
pointwise metric `d`), gather the guarded neighbor reads `Top`, `Left`,
`Top-left` in the order the source pushes them, take
`reduceMinOrZero`, and push `dist + min_neighbor_cost` onto row `r` of the
cost matrix.  Any out-of-bounds read is `none`. -/
def dtwCell [LinearOrderedAddCommMonoid U] (d : T → T → U) (x y : List T)
    (r c : Nat) (cm : List (List U)) : Option (List (List U)) := do
  let xc ← x[c]?
  let yr ← y[r]?
  let dist : U := d xc yr
  let top ← if 0 < r then (getCell cm (r - 1) c).map (fun v => [v]) else some []
  let left ← if 0 < c then (getCell cm r (c - 1)).map (fun v => [v]) else some []
  let topLeft ←
    if 0 < c ∧ 0 < r then (getCell cm (r - 1) (c - 1)).map (fun v => [v]) else some []
  let neighborCosts : List U := top ++ left ++ topLeft
  let minNeighborCost := reduceMinOrZero neighborCosts
  let row ← cm[r]?
  some (cm.set r (row ++ [dist + minNeighborCost]))

/-- Embedding of `DynamicTimeWarping::one_to_one` (src/metric_dtw.rs lines
20-59).  The outer loop over `r in 0..y.len()` first pushes a fresh empty
row (`cost_matrix.push(Vec::with_capacity(x.len()))`), then the inner loop
over `c in 0..x.len()` fills it cell by cell; finally the value
`cost_matrix[y.len() - 1][x.len() - 1]` is read.  A `none` result is a Rust
panic: the source has no guard for empty inputs, so for an empty `x` or `y`
the final read (after `usize` underflow of `len() - 1`) is out of bounds. -/
def one_to_one [LinearOrderedAddCommMonoid U] (d : T → T → U) (x y : List T) : Option U := do
  let cm ← (List.range y.length).foldlM
    (fun cm r =>
      (List.range x.length).foldlM (fun cm c => dtwCell d x y r c cm) (cm ++ [[]]))
    ([] : List (List U))
  getCell cm (y.length - 1) (x.length - 1)

/-- Modelled from the spec (section 4.2, the reference dynamic-programming
recurrence): cell `(r, c)` is the pointwise distance `δ r c` plus the
minimum over the available neighbors among top `(r-1, c)`, left `(r, c-1)`
and top-left `(r-1, c-1)`, where neighbors at `r = 0` or `c = 0` are
excluded; the empty neighbor set (only at `(0, 0)`) contributes the zero
value of `U`. -/
def refCost [LinearOrderedAddCommMonoid U] (δ : Nat → Nat → U) : Nat → Nat → U
  | 0, 0 => δ 0 0 + 0
  | 0, c + 1 => δ 0 (c + 1) + refCost δ 0 c
  | r + 1, 0 => δ (r + 1) 0 + refCost δ r 0
  | r + 1, c + 1 =>
      δ (r + 1) (c + 1) +
        min (refCost δ r (c + 1)) (min (refCost δ (r + 1) c) (refCost δ r c))
  termination_by r c => (r, c)

/-- Modelled from the spec: the reference DTW distance of two sequences is
the bottom-right cell `cost_matrix[len(y)-1][len(x)-1]` of the reference
cost matrix, whose `(r, c)` entry uses the pointwise distance between
`x[c]` and `y[r]`. -/
def dtwRef [LinearOrderedAddCommMonoid U] [Inhabited T] (d : T → T → U) (x y : List T) : U :=
  refCost (fun r c => d (x.getD c default) (y.getD r default)) (y.length - 1) (x.length - 1)

/-- Pointwise-distance table of two sequences: entry `(r, c)` compares
`x[c]` with `y[r]` (total via a default element, read only in bounds). -/
def pd [Inhabited T] (d : T → T → U) (x y : List T) (r c : Nat) : U :=
  d (x.getD c default) (y.getD r default)

/-- Row `r` of the reference cost matrix, truncated to its first `n`
cells. -/
def specRow [LinearOrderedAddCommMonoid U] (δ : Nat → Nat → U) (r n : Nat) : List U :=
  (List.range n).map (fun j => refCost δ r j)

/-- The first `m` full rows (each of width `n`) of the reference cost
matrix. -/
def specMatrix [LinearOrderedAddCommMonoid U] (δ : Nat → Nat → U) (m n : Nat) : List (List U) :=
  (List.range m).map (fun i => specRow δ i n)

section Helpers

variable [LinearOrderedAddCommMonoid U]

theorem rustMin_eq_min (a b : U) : rustMin a b = min a b := by
  unfold rustMin
  rcases lt_or_ge a b with h | h
  · simp [h, min_eq_left h.le]
  · simp [not_lt.mpr h, min_eq_right h]

theorem reduceMinOrZero_nil : reduceMinOrZero ([] : List U) = 0 := rfl

theorem reduceMinOrZero_single (a : U) : reduceMinOrZero [a] = a := rfl

theorem reduceMinOrZero_pair (a b : U) : reduceMinOrZero [a, b] = min a b := by
  simp [reduceMinOrZero, rustMin_eq_min]

theorem reduceMinOrZero_triple (a b c : U) :
    reduceMinOrZero [a, b, c] = min (min a b) c := by
  simp [reduceMinOrZero, rustMin_eq_min]

theorem specRow_length (δ : Nat → Nat → U) (r n : Nat) : (specRow δ r n).length = n := by
  simp [specRow]

theorem specMatrix_length (δ : Nat → Nat → U) (m n : Nat) :
    (specMatrix δ m n).length = m := by
  simp [specMatrix]

theorem specRow_get (δ : Nat → Nat → U) (r n j : Nat) (h : j < n) :
    (specRow δ r n)[j]? = some (refCost δ r j) := by
  simp [specRow, List.getElem?_map, List.getElem?_range h]

theorem specMatrix_get (δ : Nat → Nat → U) (m n i : Nat) (h : i < m) :
    (specMatrix δ m n)[i]? = some (specRow δ i n) := by
  simp [specMatrix, List.getElem?_map, List.getElem?_range h]

theorem specRow_zero (δ : Nat → Nat → U) (r : Nat) : specRow δ r 0 = [] := rfl

theorem specRow_succ (δ : Nat → Nat → U) (r c : Nat) :
    specRow δ r (c + 1) = specRow δ r c ++ [refCost δ r c] := by
  simp [specRow, List.range_succ]

theorem specMatrix_zero (δ : Nat → Nat → U) (n : Nat) : specMatrix δ 0 n = [] := rfl

theorem specMatrix_succ (δ : Nat → Nat → U) (m n : Nat) :
    specMatrix δ (m + 1) n = specMatrix δ m n ++ [specRow δ m n] := by
  simp [specMatrix, List.range_succ]

theorem set_append_length {α : Type} (A : List α) (p q : α) :
    (A ++ [p]).set A.length q = A ++ [q] := by
  induction A with
  | nil => rfl
  | cons a as ih => simp [ih]

theorem getElem?_eq_some_getD {α : Type} [Inhabited α] (l : List α) (n : Nat)
    (h : n < l.length) : l[n]? = some (l.getD n default) := by
  rw [List.getElem?_eq_getElem h, List.getD_eq_getElem l default h]

/-- Filling one cell: if the cost matrix holds the first `r` full reference
rows plus the first `c` cells of row `r`, the loop body extends row `r` by
the reference value of cell `(r, c)` and cannot fail. -/
theorem dtwCell_step [Inhabited T] (d : T → T → U) (x y : List T) (r c : Nat)
    (hr : r < y.length) (hc : c < x.length) :
    dtwCell d x y r c (specMatrix (pd d x y) r x.length ++ [specRow (pd d x y) r c]) =
      some (specMatrix (pd d x y) r x.length ++ [specRow (pd d x y) r (c + 1)]) := by
  have hx := getElem?_eq_some_getD x c hc
  have hy := getElem?_eq_some_getD y r hr
  have hrow : (specMatrix (pd d x y) r x.length ++ [specRow (pd d x y) r c])[r]? =
      some (specRow (pd d x y) r c) := by
    have h := List.getElem?_concat_length (specMatrix (pd d x y) r x.length)
        (specRow (pd d x y) r c)
    rwa [specMatrix_length] at h
  have hset : (specMatrix (pd d x y) r x.length ++ [specRow (pd d x y) r c]).set r
      (specRow (pd d x y) r c ++ [refCost (pd d x y) r c]) =
      specMatrix (pd d x y) r x.length ++ [specRow (pd d x y) r (c + 1)] := by
    rw [specRow_succ]
    have h := set_append_length (specMatrix (pd d x y) r x.length)
        (specRow (pd d x y) r c) (specRow (pd d x y) r c ++ [refCost (pd d x y) r c])
    rwa [specMatrix_length] at h
  have hprev : ∀ i j, i < r → j < x.length →
      getCell (specMatrix (pd d x y) r x.length ++ [specRow (pd d x y) r c]) i j =
        some (refCost (pd d x y) i j) := by
    intro i j hi hj
    unfold getCell
    rw [List.getElem?_append_left (by rw [specMatrix_length]; exact hi),
      specMatrix_get _ _ _ _ hi]
    simp [specRow_get _ _ _ _ hj]
  have hcur : ∀ j, j < c →
      getCell (specMatrix (pd d x y) r x.length ++ [specRow (pd d x y) r c]) r j =
        some (refCost (pd d x y) r j) := by
    intro j hj
    unfold getCell
    rw [hrow]
    simp [specRow_get _ _ _ _ hj]
  rcases r with _ | r <;> rcases c with _ | c
  · simp only [dtwCell, hx, hy, Option.some_bind, hrow]
    simp [reduceMinOrZero_nil, specMatrix_zero, specRow_succ, refCost, pd,
      List.getD_eq_getElem?_getD]
  · have hleft := hcur c (Nat.lt_succ_self c)
    simp only [dtwCell, hx, hy, Option.some_bind, hrow, Nat.add_sub_cancel, hleft]
    simp [specMatrix_zero, specRow_succ, reduceMinOrZero_single, refCost, pd,
      List.getD_eq_getElem?_getD]
  · have htop := hprev r 0 (Nat.lt_succ_self r) hc
    rw [show refCost (pd d x y) (r + 1) 0 = pd d x y (r + 1) 0 + refCost (pd d x y) r 0
      from by simp [refCost]] at hset
    simp only [pd, List.getD_eq_getElem?_getD] at hset
    simp only [dtwCell, hx, hy, Option.some_bind, hrow, Nat.add_sub_cancel, htop]
    simp [reduceMinOrZero_single, hset]
  · have htop := hprev r (c + 1) (Nat.lt_succ_self r) hc
    have hleft := hcur c (Nat.lt_succ_self c)
    have htl := hprev r c (Nat.lt_succ_self r) (Nat.lt_of_succ_lt hc)
    rw [show refCost (pd d x y) (r + 1) (c + 1) = pd d x y (r + 1) (c + 1) +
        min (refCost (pd d x y) r (c + 1))
          (min (refCost (pd d x y) (r + 1) c) (refCost (pd d x y) r c))
      from by simp [refCost], ← min_assoc] at hset
    simp only [pd, List.getD_eq_getElem?_getD] at hset
    simp only [dtwCell, hx, hy, Option.some_bind, hrow, Nat.add_sub_cancel, htop,
      hleft, htl]
    simp [reduceMinOrZero_triple, hset]

/-- Inner loop: folding the remaining column indices fills row `r` of the
cost matrix out to the full reference row, and never fails. -/
theorem innerLoop_go [Inhabited T] (d : T → T → U) (x y : List T) (r : Nat)
    (hr : r < y.length) :
    ∀ (k c : Nat), c + k = x.length →
      (List.range' c k).foldlM (fun cm c => dtwCell d x y r c cm)
        (specMatrix (pd d x y) r x.length ++ [specRow (pd d x y) r c]) =
      some (specMatrix (pd d x y) r x.length ++ [specRow (pd d x y) r x.length]) := by
  intro k
  induction k with
  | zero =>
    intro c hc
    rw [Nat.add_zero] at hc
    subst hc
    rfl
  | succ k ih =>
    intro c hc
    have hck : c < x.length := by omega
    rw [List.range'_succ, List.foldlM_cons, dtwCell_step d x y r c hr hck]
    simp only [Option.bind_eq_bind, Option.some_bind]
    exact ih (c + 1) (by omega)

/-- Outer loop: folding the remaining row indices extends the cost matrix
out to the full reference matrix, and never fails. -/
theorem outerLoop_go [Inhabited T] (d : T → T → U) (x y : List T) :
    ∀ (k r : Nat), r + k = y.length →
      (List.range' r k).foldlM
        (fun cm r =>
          (List.range x.length).foldlM (fun cm c => dtwCell d x y r c cm) (cm ++ [[]]))
        (specMatrix (pd d x y) r x.length) =
      some (specMatrix (pd d x y) y.length x.length) := by
  intro k
  induction k with
  | zero =>
    intro r hr
    rw [Nat.add_zero] at hr
    subst hr
    rfl
  | succ k ih =>
    intro r hr
    have hrk : r < y.length := by omega
    have hinner := innerLoop_go d x y r hrk x.length 0 (by omega)
    rw [← List.range_eq_range'] at hinner
    have hinner2 : (List.range x.length).foldlM (fun cm c => dtwCell d x y r c cm)
        (specMatrix (pd d x y) r x.length ++ [[]]) =
        some (specMatrix (pd d x y) r x.length ++ [specRow (pd d x y) r x.length]) := hinner
    rw [List.range'_succ, List.foldlM_cons, hinner2]
    simp only [Option.bind_eq_bind, Option.some_bind]
    rw [← specMatrix_succ]
    exact ih (r + 1) (by omega)

/-- Correctness of the embedding: on non-empty inputs `one_to_one` succeeds
and returns exactly the reference recurrence value at the bottom-right
cell. -/
theorem one_to_one_eq_refCost [Inhabited T] (d : T → T → U) (x y : List T)
    (hx : x ≠ []) (hy : y ≠ []) :
    one_to_one d x y =
      some (refCost (pd d x y) (y.length - 1) (x.length - 1)) := by
  have hx' : 0 < x.length := List.length_pos.mpr hx
  have hy' : 0 < y.length := List.length_pos.mpr hy
  unfold one_to_one
  have houter := outerLoop_go d x y y.length 0 (by omega)
  rw [← List.range_eq_range', specMatrix_zero] at houter
  rw [houter]
  simp only [Option.bind_eq_bind, Option.some_bind]
  unfold getCell
  rw [specMatrix_get _ _ _ _ (by omega)]
  simp [specRow_get _ _ _ _ (show x.length - 1 < x.length by omega)]

/-- The embedding agrees with the spec-side reference distance `dtwRef`. -/
theorem one_to_one_eq_dtwRef [Inhabited T] (d : T → T → U) (x y : List T)
    (hx : x ≠ []) (hy : y ≠ []) :
    one_to_one d x y = some (dtwRef d x y) :=
  one_to_one_eq_refCost d x y hx hy

/-- The reference cost at `(r, c)` only depends on the pointwise distances
at indices `(i, j)` with `i ≤ r` and `j ≤ c`. -/
theorem refCost_congr (δ δ' : Nat → Nat → U) :
    ∀ (r c : Nat), (∀ i j, i ≤ r → j ≤ c → δ i j = δ' i j) →
      refCost δ r c = refCost δ' r c := by
  have key : ∀ (n r c : Nat), r + c ≤ n →
      (∀ i j, i ≤ r → j ≤ c → δ i j = δ' i j) → refCost δ r c = refCost δ' r c := by
    intro n
    induction n with
    | zero =>
      intro r c h hδ
      have hr : r = 0 := by omega
      have hc : c = 0 := by omega
      subst hr
      subst hc
      simp [refCost, hδ 0 0 le_rfl le_rfl]
    | succ n ih =>
      intro r c h hδ
      rcases r with _ | r <;> rcases c with _ | c
      · simp [refCost, hδ 0 0 le_rfl le_rfl]
      · simp only [refCost]
        rw [hδ 0 (c + 1) le_rfl le_rfl,
          ih 0 c (by omega) (fun i j hi hj => hδ i j hi (by omega))]
      · simp only [refCost]
        rw [hδ (r + 1) 0 le_rfl le_rfl,
          ih r 0 (by omega) (fun i j hi hj => hδ i j (by omega) hj)]
      · simp only [refCost]
        rw [hδ (r + 1) (c + 1) le_rfl le_rfl,
          ih r (c + 1) (by omega) (fun i j hi hj => hδ i j (by omega) hj),
          ih (r + 1) c (by omega) (fun i j hi hj => hδ i j hi (by omega)),
          ih r c (by omega) (fun i j hi hj => hδ i j (by omega) (by omega))]
  intro r c hδ
  exact key (r + c) r c le_rfl hδ

/-- With a non-negative pointwise distance, every reference cost is
non-negative. -/
theorem refCost_nonneg (δ : Nat → Nat → U) (hδ : ∀ r c, 0 ≤ δ r c) :
    ∀ (r c : Nat), 0 ≤ refCost δ r c := by
  have key : ∀ (n r c : Nat), r + c ≤ n → 0 ≤ refCost δ r c := by
    intro n
    induction n with
    | zero =>
      intro r c h
      have hr : r = 0 := by omega
      have hc : c = 0 := by omega
      subst hr
      subst hc
      simpa [refCost] using hδ 0 0
    | succ n ih =>
      intro r c h
      rcases r with _ | r <;> rcases c with _ | c
      · simpa [refCost] using hδ 0 0
      · simp only [refCost]
        exact add_nonneg (hδ 0 (c + 1)) (ih 0 c (by omega))
      · simp only [refCost]
        exact add_nonneg (hδ (r + 1) 0) (ih r 0 (by omega))
      · simp only [refCost]
        exact add_nonneg (hδ (r + 1) (c + 1))
          (le_min (ih r (c + 1) (by omega))
            (le_min (ih (r + 1) c (by omega)) (ih r c (by omega))))
  intro r c
  exact key (r + c) r c le_rfl

/-- If every pointwise distance is zero, every reference cost is zero. -/
theorem refCost_of_zero (δ : Nat → Nat → U) (hδ : ∀ r c, δ r c = 0) :
    ∀ (r c : Nat), refCost δ r c = 0 := by
  have key : ∀ (n r c : Nat), r + c ≤ n → refCost δ r c = 0 := by
    intro n
    induction n with
    | zero =>
      intro r c h
      have hr : r = 0 := by omega
      have hc : c = 0 := by omega
      subst hr
      subst hc
      simp [refCost, hδ 0 0]
    | succ n ih =>
      intro r c h
      rcases r with _ | r <;> rcases c with _ | c
      · simp [refCost, hδ 0 0]
      · simp [refCost, hδ 0 (c + 1), ih 0 c (by omega)]
      · simp [refCost, hδ (r + 1) 0, ih r 0 (by omega)]
      · simp [refCost, hδ (r + 1) (c + 1), ih r (c + 1) (by omega),
          ih (r + 1) c (by omega), ih r c (by omega)]
  intro r c
  exact key (r + c) r c le_rfl

/-- With a non-negative pointwise distance vanishing on the diagonal, the
diagonal of the reference cost matrix is zero. -/
theorem refCost_diag_zero (δ : Nat → Nat → U) (hnn : ∀ r c, 0 ≤ δ r c)
    (hdiag : ∀ k, δ k k = 0) : ∀ (n : Nat), refCost δ n n = 0 := by
  intro n
  induction n with
  | zero => simp [refCost, hdiag 0]
  | succ n ih =>
    simp only [refCost]
    rw [hdiag (n + 1), ih, zero_add,
      min_eq_right (refCost_nonneg δ hnn (n + 1) n),
      min_eq_right (refCost_nonneg δ hnn n (n + 1))]

/-- Transposing the pointwise-distance table transposes the reference cost
matrix. -/
theorem refCost_transpose (δ : Nat → Nat → U) :
    ∀ (r c : Nat), refCost (fun i j => δ j i) c r = refCost δ r c := by
  have key : ∀ (n r c : Nat), r + c ≤ n →
      refCost (fun i j => δ j i) c r = refCost δ r c := by
    intro n
    induction n with
    | zero =>
      intro r c h
      have hr : r = 0 := by omega
      have hc : c = 0 := by omega
      subst hr
      subst hc
      simp [refCost]
    | succ n ih =>
      intro r c h
      rcases r with _ | r <;> rcases c with _ | c
      · simp [refCost]
      · simp only [refCost]
        rw [ih 0 c (by omega)]
      · simp only [refCost]
        rw [ih r 0 (by omega)]
      · simp only [refCost]
        rw [ih (r + 1) c (by omega), ih r (c + 1) (by omega), ih r c (by omega),
          min_left_comm]
  intro r c
  exact key (r + c) r c le_rfl

/-- Against a single-column table, the reference cost accumulates the plain
sum of the column distances. -/
theorem refCost_col (δ : Nat → Nat → U) :
    ∀ (r : Nat), refCost δ r 0 = ((List.range (r + 1)).map (fun i => δ i 0)).sum := by
  intro r
  induction r with
  | zero => simp [refCost, List.range_succ]
  | succ r ih =>
    conv_rhs => rw [List.range_succ, List.map_append, List.sum_append]
    rw [← ih]
    simp only [refCost, List.map_cons, List.map_nil, List.sum_cons, List.sum_nil,
      add_zero]
    apply add_comm

/-- Against a single-row table, the reference cost accumulates the plain
sum of the row distances. -/
theorem refCost_row (δ : Nat → Nat → U) :
    ∀ (c : Nat), refCost δ 0 c = ((List.range (c + 1)).map (fun j => δ 0 j)).sum := by
  intro c
  induction c with
  | zero => simp [refCost, List.range_succ]
  | succ c ih =>
    conv_rhs => rw [List.range_succ, List.map_append, List.sum_append]
    rw [← ih]
    simp only [refCost, List.map_cons, List.map_nil, List.sum_cons, List.sum_nil,
      add_zero]
    apply add_comm

/-- Reading a list through in-range default-valued indexing recovers a plain
map over the list. -/
theorem map_getD_range {α β : Type} [Inhabited α] (l : List α) (f : α → β) :
    (List.range l.length).map (fun i => f (l.getD i default)) = l.map f := by
  apply List.ext_getElem
  · simp
  · intro i h1 h2
    simp only [List.getElem_map, List.getElem_range]
    rw [List.getD_eq_getElem l default (by simpa using h2)]

end Helpers

/-- Modelled from the spec (memory layout choice): first row of the rolling
computation — each cell is the pointwise distance plus the cell to its left,
the leftmost cell adding the zero accumulator. -/
def rollFirstRow [LinearOrderedAddCommMonoid U] (d : T → T → U) (yr : T) :
    List T → U → List U
  | [], _ => []
  | xc :: xs, acc =>
      let cell := d xc yr + acc
      cell :: rollFirstRow d yr xs cell

/-- Modelled from the spec (memory layout choice): cells of a later row
after the first, consuming the remaining previous row while carrying the
previous-row left neighbor `pl` and the current-row left neighbor `cl`. -/
def rollNextCells [LinearOrderedAddCommMonoid U] (d : T → T → U) (yr : T) :
    List T → List U → U → U → List U
  | [], _, _, _ => []
  | _ :: _, [], _, _ => []
  | xc :: xs, pc :: ps, pl, cl =>
      let cell := d xc yr + min pc (min cl pl)
      cell :: rollNextCells d yr xs ps pc cell

/-- Modelled from the spec (memory layout choice): one later row of the
rolling computation, built from the full previous row; the leftmost cell has
only its top neighbor. -/
def rollRow [LinearOrderedAddCommMonoid U] (d : T → T → U) (yr : T)
    (x : List T) (prev : List U) : List U :=
  match x, prev with
  | [], _ => []
  | _ :: _, [] => []
  | xc :: xs, p0 :: ps =>
      let cell := d xc yr + p0
      cell :: rollNextCells d yr xs ps p0 cell

/-- Modelled from the spec (memory layout choice, sections 4.2 and 9): the
rolling two-row variant of `one_to_one`, retaining only the previous row
plus the current row in progress, rejecting empty inputs, and returning the
last cell of the final row. -/
def one_to_one_rolling [LinearOrderedAddCommMonoid U] (d : T → T → U)
    (x y : List T) : Option U :=
  if x.isEmpty then none
  else
    match y with
    | [] => none
    | y0 :: ys =>
        (ys.foldl (fun prev yr => rollRow d yr x prev) (rollFirstRow d y0 x 0)).getLast?

section Rolling

variable [LinearOrderedAddCommMonoid U] [Inhabited T]

theorem drop_cons_getD {α : Type} [Inhabited α] {l : List α} {c : Nat} {a : α}
    {t : List α} (h : l.drop c = a :: t) : l.getD c default = a := by
  have h2 := List.getElem?_drop l c 0
  rw [h] at h2
  rw [List.getD_eq_getElem?_getD]
  simp at h2
  simp [← h2]

theorem drop_cons_succ {α : Type} {l : List α} {c : Nat} {a : α}
    {t : List α} (h : l.drop c = a :: t) : l.drop (c + 1) = t := by
  have h2 := congrArg (List.drop 1) h
  rw [List.drop_drop] at h2
  simpa using h2

/-- The first rolling row computes the first reference row: from column `c`
on, with the accumulator satisfying the cell recurrence at column `c`. -/
theorem rollFirstRow_eq (d : T → T → U) (x y : List T) :
    ∀ (l : List T) (c : Nat) (acc : U), x.drop c = l →
      d (x.getD c default) (y.getD 0 default) + acc = refCost (pd d x y) 0 c →
      rollFirstRow d (y.getD 0 default) l acc =
        (List.range' c (x.length - c)).map (fun j => refCost (pd d x y) 0 j) := by
  intro l
  induction l with
  | nil =>
    intro c acc hdrop hacc
    have : x.length ≤ c := by
      rw [← List.drop_eq_nil_iff_le]
      exact hdrop
    rw [Nat.sub_eq_zero_of_le this]
    rfl
  | cons xc xs ih =>
    intro c acc hdrop hacc
    have hc : c < x.length := by
      by_contra hcon
      rw [List.drop_eq_nil_iff_le.mpr (by omega)] at hdrop
      exact List.noConfusion hdrop
    have hxc : x.getD c default = xc := drop_cons_getD hdrop
    have hk : x.length - c = (x.length - (c + 1)) + 1 := by omega
    rw [hk, List.range'_succ]
    simp only [rollFirstRow, List.map_cons]
    rw [hxc] at hacc
    rw [hacc]
    rw [ih (c + 1) (refCost (pd d x y) 0 c) (drop_cons_succ hdrop)
      (by rw [show refCost (pd d x y) 0 (c + 1) =
            pd d x y 0 (c + 1) + refCost (pd d x y) 0 c from by simp [refCost]]
          rfl)]

/-- Later rolling cells compute the corresponding reference cells: from
column `c0 + 1` on, carrying the two reference left neighbors at column
`c0`. -/
theorem rollNextCells_eq (d : T → T → U) (x y : List T) (r : Nat) :
    ∀ (l : List T) (c0 : Nat), x.drop (c0 + 1) = l →
      rollNextCells d (y.getD (r + 1) default) l
          ((List.range' (c0 + 1) (x.length - (c0 + 1))).map
            (fun j => refCost (pd d x y) r j))
          (refCost (pd d x y) r c0) (refCost (pd d x y) (r + 1) c0) =
        (List.range' (c0 + 1) (x.length - (c0 + 1))).map
          (fun j => refCost (pd d x y) (r + 1) j) := by
  intro l
  induction l with
  | nil =>
    intro c0 hdrop
    have : x.length ≤ c0 + 1 := by
      rw [← List.drop_eq_nil_iff_le]
      exact hdrop
    rw [Nat.sub_eq_zero_of_le this]
    rfl
  | cons xc xs ih =>
    intro c0 hdrop
    have hc : c0 + 1 < x.length := by
      by_contra hcon
      rw [List.drop_eq_nil_iff_le.mpr (by omega)] at hdrop
      exact List.noConfusion hdrop
    have hxc : x.getD (c0 + 1) default = xc := drop_cons_getD hdrop
    have hk : x.length - (c0 + 1) = (x.length - (c0 + 2)) + 1 := by omega
    rw [hk, List.range'_succ]
    simp only [List.map_cons, rollNextCells]
    rw [show d xc (y.getD (r + 1) default) +
        min (refCost (pd d x y) r (c0 + 1))
          (min (refCost (pd d x y) (r + 1) c0) (refCost (pd d x y) r c0)) =
        refCost (pd d x y) (r + 1) (c0 + 1) from by
      rw [show refCost (pd d x y) (r + 1) (c0 + 1) = pd d x y (r + 1) (c0 + 1) +
          min (refCost (pd d x y) r (c0 + 1))
            (min (refCost (pd d x y) (r + 1) c0) (refCost (pd d x y) r c0))
        from by simp [refCost]]
      rw [show pd d x y (r + 1) (c0 + 1) = d xc (y.getD (r + 1) default) from by
        rw [pd, hxc]]]
    rw [ih (c0 + 1) (drop_cons_succ hdrop)]

/-- A later rolling row maps the full previous reference row to the full
next reference row. -/
theorem rollRow_eq (d : T → T → U) (x y : List T) (r : Nat) (hx : x ≠ []) :
    rollRow d (y.getD (r + 1) default) x
        ((List.range x.length).map (fun j => refCost (pd d x y) r j)) =
      (List.range x.length).map (fun j => refCost (pd d x y) (r + 1) j) := by
  rcases x with _ | ⟨x0, xt⟩
  · exact absurd rfl hx
  have hn : (x0 :: xt).length = xt.length + 1 := rfl
  rw [List.range_eq_range', hn, List.range'_succ]
  simp only [List.map_cons, rollRow]
  have hcell : d x0 ((y.getD (r + 1) default)) + refCost (pd d (x0 :: xt) y) r 0 =
      refCost (pd d (x0 :: xt) y) (r + 1) 0 := by
    rw [show refCost (pd d (x0 :: xt) y) (r + 1) 0 =
        pd d (x0 :: xt) y (r + 1) 0 + refCost (pd d (x0 :: xt) y) r 0
      from by simp [refCost]]
    rfl
  rw [hcell]
  have hnext := rollNextCells_eq d (x0 :: xt) y r xt 0 rfl
  simp only [Nat.zero_add, List.length_cons, Nat.add_sub_cancel] at hnext
  rw [hnext]

/-- Folding the remaining rows of `y` over the rolling row update carries
the full reference row `r` to the full final reference row. -/
theorem rollFold_eq (d : T → T → U) (x y : List T) (hx : x ≠ []) :
    ∀ (ly : List T) (r : Nat), y.drop (r + 1) = ly → r < y.length →
      ly.foldl (fun prev yr => rollRow d yr x prev)
        ((List.range x.length).map (fun j => refCost (pd d x y) r j)) =
      (List.range x.length).map (fun j => refCost (pd d x y) (y.length - 1) j) := by
  intro ly
  induction ly with
  | nil =>
    intro r hdrop hr
    have hle : y.length ≤ r + 1 := by
      rw [← List.drop_eq_nil_iff_le]
      exact hdrop
    have hreq : r = y.length - 1 := by omega
    rw [hreq]
    rfl
  | cons yr' ys' ih =>
    intro r hdrop hr
    have hyr : y.getD (r + 1) default = yr' := drop_cons_getD hdrop
    have hr1 : r + 1 < y.length := by
      by_contra hcon
      rw [List.drop_eq_nil_iff_le.mpr (by omega)] at hdrop
      exact List.noConfusion hdrop
    simp only [List.foldl_cons]
    rw [← hyr, rollRow_eq d x y r hx]
    exact ih (r + 1) (drop_cons_succ hdrop) hr1

/-- The rolling two-row implementation returns exactly the same result as
the full-matrix implementation on non-empty inputs. -/
theorem one_to_one_rolling_eq (d : T → T → U) (x y : List T)
    (hx : x ≠ []) (hy : y ≠ []) :
    one_to_one_rolling d x y = one_to_one d x y := by
  rcases y with _ | ⟨y0, ys⟩
  · exact absurd rfl hy
  rw [one_to_one_eq_refCost d x (y0 :: ys) hx (by simp)]
  unfold one_to_one_rolling
  rw [if_neg (by simp [hx])]
  show (List.foldl (fun prev yr => rollRow d yr x prev)
    (rollFirstRow d y0 x 0) ys).getLast? = _
  have hfirst := rollFirstRow_eq d x (y0 :: ys) x 0 0 rfl (by
    rw [show refCost (pd d x (y0 :: ys)) 0 0 = pd d x (y0 :: ys) 0 0 + 0
      from by simp [refCost]]
    rfl)
  simp only [List.drop_zero, Nat.sub_zero, ← List.range_eq_range'] at hfirst
  have hgetD0 : ((y0 :: ys) : List T).getD 0 default = y0 := rfl
  rw [hgetD0] at hfirst
  rw [hfirst, rollFold_eq d x (y0 :: ys) hx ys 0 rfl (by simp)]
  rw [List.getLast?_eq_getElem?]
  have hxlen : 0 < x.length := List.length_pos.mpr hx
  rw [List.length_map, List.length_range]
  rw [List.getElem?_map, List.getElem?_range (by omega : x.length - 1 < x.length)]
  rfl

end Rolling

/-- Concrete pointwise metric for concrete statements: absolute difference
on integers, which is what the tests' manhattan/euclidean child metrics
compute on single-element slices. -/
def absInt (a b : Int) : Int := |a - b|

section Claims

variable [LinearOrderedAddCommMonoid U] [Inhabited T]

/-- Claim C1: the spec requires a call with an empty input sequence to fail
fast with the explicit descriptive EmptyInputError.  The code has no such
guard (and no such error type exists anywhere in the repository): the call
runs to the out-of-bounds read of `cost_matrix[y.len() - 1][x.len() - 1]`
and panics, modelled here by `none`. -/
theorem claim1_empty_input_panics :
    one_to_one absInt ([] : List Int) [2] = none ∧
    one_to_one absInt [2] ([] : List Int) = none ∧
    one_to_one absInt ([] : List Int) ([] : List Int) = none :=
  ⟨rfl, rfl, rfl⟩

/-- Claim C2: for every pair of non-empty sequences, `one_to_one` equals the
reference dynamic-programming definition — cell `(r, c)` is the pointwise
distance of `x[c]` and `y[r]` plus the minimum over the available neighbors
among top, left and top-left (neighbors at `r = 0` or `c = 0` excluded, the
empty set contributing zero), and the result is the bottom-right cell
`cost_matrix[len(y)-1][len(x)-1]`. -/
theorem claim2_matches_reference (d : T → T → U) (x y : List T)
    (hx : x ≠ []) (hy : y ≠ []) :
    one_to_one d x y = some (dtwRef d x y) :=
  one_to_one_eq_dtwRef d x y hx hy

/-- Witness for C2 at a concrete input. -/
theorem claim2_witness :
    one_to_one absInt [1, 2] [4] = some (dtwRef absInt [1, 2] [4]) :=
  claim2_matches_reference absInt [1, 2] [4] (by decide) (by decide)

/-- Claim C3: the two concrete scenarios of the spec and the tests.  The
floating-point values of the first test are all exactly integral and the
computation stays integral throughout, so they are modelled by exact
integers. -/
theorem claim3_concrete_scenarios :
    one_to_one absInt [1, 3, 9, 2, 1] [2, 0, 0, 8, 7, 2] = some 9 ∧
    one_to_one absInt [2, 3, 1, 8, 5, 5, 6] [8, 7, 9, 2] = some 27 :=
  ⟨by decide, by decide⟩

/-- Claim C4: with a symmetric pointwise metric, swapping two non-empty
equal-length inputs leaves the distance unchanged. -/
theorem claim4_symmetric_swap (d : T → T → U) (x y : List T)
    (hsym : ∀ a b, d a b = d b a) (hx : x ≠ []) (hy : y ≠ [])
    (_hlen : x.length = y.length) :
    one_to_one d x y = one_to_one d y x := by
  rw [one_to_one_eq_refCost d x y hx hy, one_to_one_eq_refCost d y x hy hx]
  have hpd : pd d y x = fun i j => pd d x y j i := by
    funext i j
    rw [pd, pd, hsym]
  rw [hpd, refCost_transpose]

/-- Witness for C4 at a concrete input. -/
theorem claim4_witness :
    one_to_one absInt [1, 5] [2, 3] = one_to_one absInt [2, 3] [1, 5] :=
  claim4_symmetric_swap absInt [1, 5] [2, 3]
    (fun a b => abs_sub_comm a b) (by decide) (by decide) rfl

/-- Claim C5: with a pointwise metric (non-negative, per the spec glossary)
vanishing on identical elements, the self-distance of any non-empty
sequence is zero, and two constant sequences repeating the same value, of
arbitrary non-zero lengths, have distance zero. -/
theorem claim5_identity (d : T → T → U) (s : List T) (v : T) (m n : Nat)
    (hnn : ∀ a b, 0 ≤ d a b) (hrefl : ∀ a, d a a = 0) (hs : s ≠ [])
    (hm : 0 < m) (hn : 0 < n) :
    one_to_one d s s = some 0 ∧
    one_to_one d (List.replicate m v) (List.replicate n v) = some 0 := by
  constructor
  · rw [one_to_one_eq_refCost d s s hs hs]
    exact congrArg some
      (refCost_diag_zero (pd d s s) (fun r c => hnn _ _) (fun k => hrefl _)
        (s.length - 1))
  · have hmne : List.replicate m v ≠ [] :=
      List.ne_nil_of_length_pos (by simpa using hm)
    have hnne : List.replicate n v ≠ [] :=
      List.ne_nil_of_length_pos (by simpa using hn)
    rw [one_to_one_eq_refCost d (List.replicate m v) (List.replicate n v) hmne hnne]
    refine congrArg some ?_
    rw [refCost_congr (pd d (List.replicate m v) (List.replicate n v))
      (fun _ _ => 0) _ _ ?_]
    · exact refCost_of_zero _ (fun _ _ => rfl) _ _
    · intro i j hi hj
      rw [List.length_replicate] at hi hj
      rw [pd,
        List.getD_eq_getElem (List.replicate m v) default
          (by rw [List.length_replicate]; omega),
        List.getD_eq_getElem (List.replicate n v) default
          (by rw [List.length_replicate]; omega),
        List.getElem_replicate, List.getElem_replicate]
      exact hrefl v

/-- Witness for C5 at a concrete input. -/
theorem claim5_witness :
    one_to_one absInt [1, 2] [1, 2] = some 0 ∧
    one_to_one absInt (List.replicate 1 3) (List.replicate 2 3) = some 0 :=
  claim5_identity absInt [1, 2] 3 1 2 (fun a b => abs_nonneg (a - b))
    (fun a => by simp [absInt]) (by decide) (by decide) (by decide)

/-- Claim C6: with a non-negative pointwise metric, the distance of two
non-empty sequences is a value that is at least the zero of `U`. -/
theorem claim6_nonneg (d : T → T → U) (x y : List T)
    (hnn : ∀ a b, 0 ≤ d a b) (hx : x ≠ []) (hy : y ≠ []) :
    ∃ v, one_to_one d x y = some v ∧ 0 ≤ v :=
  ⟨_, one_to_one_eq_refCost d x y hx hy,
    refCost_nonneg (pd d x y) (fun _ _ => hnn _ _) _ _⟩

/-- Witness for C6 at a concrete input. -/
theorem claim6_witness :
    ∃ v, one_to_one absInt [3, 1] [2] = some v ∧ 0 ≤ v :=
  claim6_nonneg absInt [3, 1] [2] (fun a b => abs_nonneg (a - b))
    (by decide) (by decide)

/-- Claim C7: the rolling two-row implementation returns a numerically
identical result to the full-matrix implementation, for every pair of
non-empty sequences and every pointwise metric. -/
theorem claim7_rolling_equivalent (d : T → T → U) (x y : List T)
    (hx : x ≠ []) (hy : y ≠ []) :
    one_to_one_rolling d x y = one_to_one d x y :=
  one_to_one_rolling_eq d x y hx hy

/-- Witness for C7 at a concrete input. -/
theorem claim7_witness :
    one_to_one_rolling absInt [1, 3, 9] [2, 0, 7, 2] =
      one_to_one absInt [1, 3, 9] [2, 0, 7, 2] :=
  claim7_rolling_equivalent absInt [1, 3, 9] [2, 0, 7, 2] (by decide) (by decide)

/-- Counterexample to claim C8 as stated: with the absolute-difference
metric (non-negative, zero on identical elements), appending the identical
trailing element `5` to `x = [0]` and `y = [0, 5]` drops the distance from
`5` to `0`, so the cost does decrease — the claimed inequality
`one_to_one (x ++ [z]) (y ++ [z]) ≥ one_to_one x y` fails at this input. -/
theorem claim8_counterexample :
    absInt 5 5 = 0 ∧
    one_to_one absInt [0] [0, 5] = some 5 ∧
    one_to_one absInt ([0] ++ [5]) ([0, 5] ++ [5]) = some 0 ∧
    ¬ ((5 : Int) ≤ 0) :=
  ⟨by decide, by decide, by decide, by decide⟩

/-- Claim C8 as amended: appending one identical trailing element to both
non-empty sequences (pointwise metric zero on identical elements) does NOT
INCREASE the alignment cost. -/
theorem claim8_amended_padding (d : T → T → U) (x y : List T) (z : T)
    (hz : ∀ a, d a a = 0) (hx : x ≠ []) (hy : y ≠ []) :
    ∃ v w, one_to_one d x y = some v ∧
      one_to_one d (x ++ [z]) (y ++ [z]) = some w ∧ w ≤ v := by
  have hx' : 0 < x.length := List.length_pos.mpr hx
  have hy' : 0 < y.length := List.length_pos.mpr hy
  refine ⟨_, _, one_to_one_eq_refCost d x y hx hy,
    one_to_one_eq_refCost d (x ++ [z]) (y ++ [z]) (by simp) (by simp), ?_⟩
  have hA : (x ++ [z]).length - 1 = (x.length - 1) + 1 := by
    rw [List.length_append]
    simp
    omega
  have hB : (y ++ [z]).length - 1 = (y.length - 1) + 1 := by
    rw [List.length_append]
    simp
    omega
  rw [hA, hB]
  have hzz : pd d (x ++ [z]) (y ++ [z]) ((y.length - 1) + 1) ((x.length - 1) + 1) = 0 := by
    rw [pd, List.getD_append_right x [z] default ((x.length - 1) + 1) (by omega),
      List.getD_append_right y [z] default ((y.length - 1) + 1) (by omega),
      show (x.length - 1) + 1 - x.length = 0 from by omega,
      show (y.length - 1) + 1 - y.length = 0 from by omega]
    exact hz z
  have hcongr : refCost (pd d (x ++ [z]) (y ++ [z])) (y.length - 1) (x.length - 1) =
      refCost (pd d x y) (y.length - 1) (x.length - 1) := by
    refine refCost_congr _ _ _ _ (fun i j hi hj => ?_)
    rw [pd, pd, List.getD_append x [z] default j (by omega),
      List.getD_append y [z] default i (by omega)]
  rw [show refCost (pd d (x ++ [z]) (y ++ [z])) ((y.length - 1) + 1) ((x.length - 1) + 1) =
      pd d (x ++ [z]) (y ++ [z]) ((y.length - 1) + 1) ((x.length - 1) + 1) +
        min (refCost (pd d (x ++ [z]) (y ++ [z])) (y.length - 1) ((x.length - 1) + 1))
          (min (refCost (pd d (x ++ [z]) (y ++ [z])) ((y.length - 1) + 1) (x.length - 1))
            (refCost (pd d (x ++ [z]) (y ++ [z])) (y.length - 1) (x.length - 1)))
    from by simp [refCost], hzz, hcongr, zero_add]
  exact le_trans (min_le_right _ _) (min_le_right _ _)

/-- Witness for the amended C8 at a concrete input. -/
theorem claim8_witness :
    ∃ v w, one_to_one absInt [0] [0, 5] = some v ∧
      one_to_one absInt ([0] ++ [5]) ([0, 5] ++ [5]) = some w ∧ w ≤ v :=
  claim8_amended_padding absInt [0] [0, 5] 5 (fun a => by simp [absInt])
    (by decide) (by decide)

/-- Claim C9: under the precondition that both inputs are non-empty, every
indexing operation performed by `one_to_one` is in bounds — in this
embedding every slice/vector index is an `Option` read whose failure
propagates to the result, so `isSome` of the result states that no
out-of-bounds branch is reachable. -/
theorem claim9_all_indexing_in_bounds (d : T → T → U) (x y : List T)
    (hx : x ≠ []) (hy : y ≠ []) :
    (one_to_one d x y).isSome = true := by
  rw [one_to_one_eq_refCost d x y hx hy]
  rfl

/-- Witness for C9 at a concrete input. -/
theorem claim9_witness :
    (one_to_one absInt [7] [1, 2]).isSome = true :=
  claim9_all_indexing_in_bounds absInt [7] [1, 2] (by decide) (by decide)

/-- Claim C10: against a single-element sequence the distance degenerates to
the plain sum of pointwise distances, on either side. -/
theorem claim10_single_element_sum (d : T → T → U) (a b : T) (x y : List T)
    (_hnn : ∀ p q, 0 ≤ d p q) (hx : x ≠ []) (hy : y ≠ []) :
    one_to_one d [a] y = some ((y.map (fun t => d a t)).sum) ∧
    one_to_one d x [b] = some ((x.map (fun t => d t b)).sum) := by
  have hy' : 0 < y.length := List.length_pos.mpr hy
  have hx' : 0 < x.length := List.length_pos.mpr hx
  constructor
  · rw [one_to_one_eq_refCost d [a] y (by simp) hy]
    refine congrArg some ?_
    rw [show ([a] : List T).length - 1 = 0 from rfl, refCost_col,
      show y.length - 1 + 1 = y.length from by omega,
      ← map_getD_range y (fun t => d a t)]
    rfl
  · rw [one_to_one_eq_refCost d x [b] hx (by simp)]
    refine congrArg some ?_
    rw [show ([b] : List T).length - 1 = 0 from rfl, refCost_row,
      show x.length - 1 + 1 = x.length from by omega,
      ← map_getD_range x (fun t => d t b)]
    rfl

/-- Witness for C10 at a concrete input. -/
theorem claim10_witness :
    one_to_one absInt [2] [5, 6] = some (([5, 6].map (fun t => absInt 2 t)).sum) ∧
    one_to_one absInt [1, 4] [3] = some (([1, 4].map (fun t => absInt t 3)).sum) :=
  claim10_single_element_sum absInt 2 3 [1, 4] [5, 6]
    (fun p q => abs_nonneg (p - q)) (by decide) (by decide)

end Claims

end RadioML
